import Mathlib

/-!
Verification of the qLDPC parameter-sweep scripts
(src/experiments/quantum_tanner_search.py and
src/experiments/quasi_cyclic/run_search.py) against their specification.

The development shallowly embeds the two scripts: pure Python functions
become Lean functions on Nat/Int, the opaque algebraic library (qldpc.codes,
qldpc.abstract, hashlib is implemented in full) is represented by records of
the fields the scripts read, and the two schedulers become step relations.
-/

/- ===================== Seed Deriver (quantum_tanner_search.py) =========
   get_deterministic_hash(*inputs, num_bytes=4):
     input_bytes = repr(inputs).encode("utf-8")
     hash_bytes = hashlib.sha256(input_bytes).digest()
     return int.from_bytes(hash_bytes[:num_bytes], byteorder="big")
   We embed hashlib.sha256 itself (FIPS 180-4) on lists of byte values;
   the canonical serialization repr(inputs).encode("utf-8") is opaque
   Python behaviour, so the embedding takes the serialized byte list as
   its argument. -/

/-- Right rotation of a 32-bit word represented as a natural number. -/
def rotr32 (n x : ℕ) : ℕ := ((x >>> n) ||| (x <<< (32 - n))) % 2 ^ 32

/-- Bitwise choice function of SHA-256 (complement via xor with the 32-bit mask). -/
def sha_ch (x y z : ℕ) : ℕ := (x &&& y) ^^^ ((x ^^^ 4294967295) &&& z)

/-- Bitwise majority function of SHA-256. -/
def sha_maj (x y z : ℕ) : ℕ := (x &&& y) ^^^ (x &&& z) ^^^ (y &&& z)

/-- Big sigma-0 function of SHA-256. -/
def big_sig0 (x : ℕ) : ℕ := rotr32 2 x ^^^ rotr32 13 x ^^^ rotr32 22 x

/-- Big sigma-1 function of SHA-256. -/
def big_sig1 (x : ℕ) : ℕ := rotr32 6 x ^^^ rotr32 11 x ^^^ rotr32 25 x

/-- Small sigma-0 function of SHA-256. -/
def small_sig0 (x : ℕ) : ℕ := rotr32 7 x ^^^ rotr32 18 x ^^^ (x >>> 3)

/-- Small sigma-1 function of SHA-256. -/
def small_sig1 (x : ℕ) : ℕ := rotr32 17 x ^^^ rotr32 19 x ^^^ (x >>> 10)

/-- Round constants of SHA-256 (FIPS 180-4, written in decimal). -/
def K256 : List ℕ :=
  [1116352408, 1899447441, 3049323471, 3921009573,
   961987163, 1508970993, 2453635748, 2870763221,
   3624381080, 310598401, 607225278, 1426881987,
   1925078388, 2162078206, 2614888103, 3248222580,
   3835390401, 4022224774, 264347078, 604807628,
   770255983, 1249150122, 1555081692, 1996064986,
   2554220882, 2821834349, 2952996808, 3210313671,
   3336571891, 3584528711, 113926993, 338241895,
   666307205, 773529912, 1294757372, 1396182291,
   1695183700, 1986661051, 2177026350, 2456956037,
   2730485921, 2820302411, 3259730800, 3345764771,
   3516065817, 3600352804, 4094571909, 275423344,
   430227734, 506948616, 659060556, 883997877,
   958139571, 1322822218, 1537002063, 1747873779,
   1955562222, 2024104815, 2227730452, 2361852424,
   2428436474, 2756734187, 3204031479, 3329325298]

/-- Big-endian serialization of a natural number into the given number of bytes. -/
def toBytesBE : ℕ → ℕ → List ℕ
  | 0, _ => []
  | k + 1, n => toBytesBE k (n / 256) ++ [n % 256]

/-- Big-endian deserialization of a byte list, as done by int.from_bytes. -/
def fromBytesBE (bs : List ℕ) : ℕ := bs.foldl (fun acc b => acc * 256 + b) 0

/-- Group a byte list into consecutive blocks of 64 bytes. -/
def chunks64 : List ℕ → List (List ℕ)
  | [] => []
  | a :: as => ((a :: as).take 64) :: chunks64 (as.drop 63)
termination_by l => l.length
decreasing_by
  simp only [List.length_drop, List.length_cons]
  omega

/-- Combine groups of four bytes into big-endian 32-bit words. -/
def bytesToWords : List ℕ → List ℕ
  | b0 :: b1 :: b2 :: b3 :: rest =>
      (b0 * 2 ^ 24 + b1 * 2 ^ 16 + b2 * 2 ^ 8 + b3) :: bytesToWords rest
  | _ => []

/-- Extend a 16-word message schedule by the given number of additional words. -/
def extendSchedule : List ℕ → ℕ → List ℕ
  | w, 0 => w
  | w, k + 1 =>
    let n := w.length
    let s := (small_sig1 (w.getD (n - 2) 0) + w.getD (n - 7) 0 +
              small_sig0 (w.getD (n - 15) 0) + w.getD (n - 16) 0) % 2 ^ 32
    extendSchedule (w ++ [s]) k

/-- Working state of the SHA-256 compression function, eight 32-bit words. -/
structure Sha256State where
  a : ℕ
  b : ℕ
  c : ℕ
  d : ℕ
  e : ℕ
  f : ℕ
  g : ℕ
  h : ℕ
deriving DecidableEq

/-- Initial hash value of SHA-256 (FIPS 180-4, written in decimal). -/
def sha256Init : Sha256State :=
  ⟨1779033703, 3144134277, 1013904242, 2773480762,
   1359893119, 2600822924, 528734635, 1541459225⟩

/-- One round of the SHA-256 compression function. -/
def compressRound (st : Sha256State) (wk : ℕ × ℕ) : Sha256State :=
  let t1 := (st.h + big_sig1 st.e + sha_ch st.e st.f st.g + wk.2 + wk.1) % 2 ^ 32
  let t2 := (big_sig0 st.a + sha_maj st.a st.b st.c) % 2 ^ 32
  ⟨(t1 + t2) % 2 ^ 32, st.a, st.b, st.c, (st.d + t1) % 2 ^ 32, st.e, st.f, st.g⟩

/-- Process one 64-byte chunk of the padded message. -/
def processChunk (st : Sha256State) (chunk : List ℕ) : Sha256State :=
  let w := extendSchedule (bytesToWords chunk) 48
  let r := (w.zip K256).foldl compressRound st
  ⟨(st.a + r.a) % 2 ^ 32, (st.b + r.b) % 2 ^ 32, (st.c + r.c) % 2 ^ 32,
   (st.d + r.d) % 2 ^ 32, (st.e + r.e) % 2 ^ 32, (st.f + r.f) % 2 ^ 32,
   (st.g + r.g) % 2 ^ 32, (st.h + r.h) % 2 ^ 32⟩

/-- Padding of SHA-256: append the byte 128, zeros up to 56 mod 64 bytes,
    then the bit length of the message as an 8-byte big-endian integer. -/
def sha256Pad (msg : List ℕ) : List ℕ :=
  msg ++ [128] ++ List.replicate ((120 - (msg.length + 1) % 64) % 64) 0 ++
    toBytesBE 8 (8 * msg.length % 2 ^ 64)

/-- Full SHA-256 digest of a byte list, as a list of 32 byte values. -/
def sha256 (msg : List ℕ) : List ℕ :=
  let fin := (chunks64 (sha256Pad msg)).foldl processChunk sha256Init
  [fin.a, fin.b, fin.c, fin.d, fin.e, fin.f, fin.g, fin.h].flatMap (toBytesBE 4)

/-- Embedding of get_deterministic_hash from quantum_tanner_search.py.
    The argument stands for repr(inputs).encode("utf-8"), the canonical
    byte serialization of the input tuple. -/
def get_deterministic_hash (input_bytes : List ℕ) (num_bytes : ℕ := 4) : ℕ :=
  fromBytesBE ((sha256 input_bytes).take num_bytes)

/- Byte-range facts needed to bound the hash value. -/

theorem toBytesBE_lt (k n : ℕ) : ∀ b ∈ toBytesBE k n, b < 256 := by
  induction k generalizing n with
  | zero => intro b hb; simp [toBytesBE] at hb
  | succ k ih =>
    intro b hb
    simp only [toBytesBE, List.mem_append, List.mem_singleton] at hb
    rcases hb with hb | hb
    · exact ih _ b hb
    · subst hb; exact Nat.mod_lt _ (by norm_num)

theorem sha256_bytes_lt (msg : List ℕ) : ∀ b ∈ sha256 msg, b < 256 := by
  intro b hb
  simp only [sha256, List.mem_flatMap] at hb
  obtain ⟨w, _, hbw⟩ := hb
  exact toBytesBE_lt 4 w b hbw

theorem fromBytesBE_aux (bs : List ℕ) (acc : ℕ) (hb : ∀ b ∈ bs, b < 256) :
    bs.foldl (fun acc b => acc * 256 + b) acc < (acc + 1) * 256 ^ bs.length := by
  induction bs generalizing acc with
  | nil => simp
  | cons x xs ih =>
    have hx : x < 256 := hb x (List.mem_cons_self x xs)
    have hxs : ∀ b ∈ xs, b < 256 := fun b h => hb b (List.mem_cons_of_mem x h)
    calc (x :: xs).foldl (fun acc b => acc * 256 + b) acc
        = xs.foldl (fun acc b => acc * 256 + b) (acc * 256 + x) := by simp [List.foldl_cons]
      _ < (acc * 256 + x + 1) * 256 ^ xs.length := ih _ hxs
      _ ≤ ((acc + 1) * 256) * 256 ^ xs.length := by
          have : acc * 256 + x + 1 ≤ (acc + 1) * 256 := by nlinarith
          exact Nat.mul_le_mul_right _ this
      _ = (acc + 1) * 256 ^ (x :: xs).length := by ring_nf; simp [List.length_cons]; ring

theorem fromBytesBE_lt (bs : List ℕ) (hb : ∀ b ∈ bs, b < 256) :
    fromBytesBE bs < 256 ^ bs.length := by
  have := fromBytesBE_aux bs 0 hb
  simpa [fromBytesBE] using this

/-- C1: get_deterministic_hash returns a non-negative integer (it lives in ℕ)
    strictly below 2 ^ (8 * num_bytes), and equal serialized input tuples give
    equal hashes on every call, in any process or run (the embedding is a pure
    function of the serialized inputs). -/
theorem C1_hash_bounded_and_deterministic
    (input_bytes input_bytes2 : List ℕ) (num_bytes : ℕ)
    (heq : input_bytes2 = input_bytes) :
    get_deterministic_hash input_bytes num_bytes < 2 ^ (8 * num_bytes) ∧
      get_deterministic_hash input_bytes2 num_bytes =
        get_deterministic_hash input_bytes num_bytes := by
  constructor
  · have hlt : ∀ b ∈ (sha256 input_bytes).take num_bytes, b < 256 := by
      intro b hb
      exact sha256_bytes_lt input_bytes b (List.take_subset _ _ hb)
    have h1 : fromBytesBE ((sha256 input_bytes).take num_bytes) <
        256 ^ ((sha256 input_bytes).take num_bytes).length := fromBytesBE_lt _ hlt
    have h2 : 256 ^ ((sha256 input_bytes).take num_bytes).length ≤ 256 ^ num_bytes := by
      apply Nat.pow_le_pow_right (by norm_num)
      simp [List.length_take]
    have h3 : (256 : ℕ) ^ num_bytes = 2 ^ (8 * num_bytes) := by
      rw [pow_mul]
      norm_num
    calc get_deterministic_hash input_bytes num_bytes
        < 256 ^ ((sha256 input_bytes).take num_bytes).length := h1
      _ ≤ 256 ^ num_bytes := h2
      _ = 2 ^ (8 * num_bytes) := h3
  · rw [heq]

/-- Witness for C1 at a concrete serialized input. -/
theorem C1_hash_bounded_and_deterministic_witness :
    get_deterministic_hash [40, 51, 44, 32, 49, 41] 4 < 2 ^ (8 * 4) ∧
      get_deterministic_hash [40, 51, 44, 32, 49, 41] 4 =
        get_deterministic_hash [40, 51, 44, 32, 49, 41] 4 :=
  C1_hash_bounded_and_deterministic [40, 51, 44, 32, 49, 41] [40, 51, 44, 32, 49, 41] 4 rfl

/- ============ Quasi-cyclic search (quasi_cyclic/run_search.py) =========
   The qldpc library is an external collaborator: a constructed QCCode is
   represented by the record of fields the script reads. The toric mapping
   loop works on Euclidean distances sqrt(xx^2 + yy^2); to keep the embedding
   executable we carry the squared distances (integers) through the pipeline
   and compare against the squared cutoff, which is equivalent because the
   square root is strictly monotone on nonnegative reals and the cutoff is
   the integer 12: sqrt s > 12 iff s > 144. The real-valued communication
   distance is recovered as the square root of the carried square. -/

/-- Cutoff on the communication distance, MAX_COMMUNICATION_DISTANCE = 12. -/
def MAX_COMMUNICATION_DISTANCE : ℕ := 12

/-- Trial budget NUM_TRIALS = 1000 for code distance calculations. -/
def NUM_TRIALS : ℕ := 1000

/-- Minimum cyclic group order MIN_ORDER = 3. -/
def MIN_ORDER : ℕ := 3

/-- One toric layout of a quasi-cyclic code: the two sets of 2-D integer
    shift vectors returned by code.get_check_shifts(plaquette_map,
    torus_shape, open_boundaries=True), given as lists (the Python sets are
    only consumed by max over their union, which ignores order and
    multiplicity). -/
structure ToricMapping where
  shifts_x : List (ℤ × ℤ)
  shifts_z : List (ℤ × ℤ)
deriving DecidableEq

/-- Interface record of a constructed qldpc.codes.QCCode: the fields the
    script reads from the library object. The field distance_bound models
    code.get_distance_bound(num_trials=n) as a function of the trial budget
    (deterministic for a fixed constructed code). -/
structure QCCode where
  num_qubits : ℕ
  dimension : ℕ
  toric_mappings : List ToricMapping
  distance_bound : ℕ → ℕ

/-- Squared Euclidean length xx^2 + yy^2 of one shift vector. -/
def shift_norm_sq (v : ℤ × ℤ) : ℤ := v.1 ^ 2 + v.2 ^ 2

/-- Maximum squared distance over the union of X and Z shifts of one
    mapping, mirroring max(distances) in the loop body; none when the union
    is empty, in which case the Python max raises ValueError. -/
def mapping_max_dist_sq (m : ToricMapping) : Option ℤ :=
  match (m.shifts_x ++ m.shifts_z).map shift_norm_sq with
  | [] => none
  | a :: as => some (as.foldl max a)

/-- The list max_distances accumulated by the for loop over toric mappings;
    none when some mapping has an empty union of shifts (where the Python
    max raises ValueError). -/
def max_dists_sq : List ToricMapping → Option (List ℤ)
  | [] => some []
  | m :: ms =>
    match mapping_max_dist_sq m, max_dists_sq ms with
    | some a, some as => some (a :: as)
    | _, _ => none

/-- Squared minimal communication distance min(max_distances) over all toric
    mappings; none when the Python code would raise ValueError (empty union
    of shifts in some mapping, or an empty list of mappings). -/
def comm_distance_sq (code : QCCode) : Option ℤ :=
  match max_dists_sq code.toric_mappings with
  | none => none
  | some [] => none
  | some (a :: as) => some (as.foldl min a)

/-- Embedding of get_quasi_cyclic_code_params. The argument build models the
    opaque library constructor QCCode(dims, poly_a, poly_b), where the two
    polynomials 1 + x + x^ax y^ay and 1 + y + x^bx y^by are determined by the
    exponents; error models a raised ValueError (min or max of an empty
    sequence). The returned quadruple carries the squared communication
    distance. -/
def get_quasi_cyclic_code_params
    (build : ℕ → ℕ → ℕ × ℕ × ℕ × ℕ → QCCode)
    (dim_x dim_y : ℕ) (exponents : ℕ × ℕ × ℕ × ℕ) (num_trials : ℕ) :
    Except Unit (Option (ℕ × ℕ × ℕ × ℤ)) :=
  let code := build dim_x dim_y exponents
  if code.dimension = 0 then .ok none
  else
    (comm_distance_sq code).elim (.error ()) (fun comm_sq =>
      if (MAX_COMMUNICATION_DISTANCE ^ 2 : ℤ) < comm_sq then .ok none
      else .ok (some (code.num_qubits, code.dimension, code.distance_bound num_trials, comm_sq)))

/-- Key of the shared Result Store: (dim_x, dim_y, exponents, num_trials). -/
abbrev CacheKey : Type := ℕ × ℕ × (ℕ × ℕ × ℕ × ℕ) × ℕ

/-- Value persisted per key: (num_qubits, dimension, distance bound,
    squared communication distance). -/
abbrev CacheValue : Type := ℕ × ℕ × ℕ × ℤ

/-- The diskcache store, as an association list; a write cache[key] = value
    shadows any previous binding of the key. -/
abbrev Store : Type := List (CacheKey × CacheValue)

/-- Reading a key from the store (None when absent). -/
def cache_get (k : CacheKey) : Store → Option CacheValue
  | [] => none
  | (k2, v) :: s => if k = k2 then some v else cache_get k s

/-- Embedding of run_and_save: compute the parameters and, when they are not
    None, write them to the store under (dim_x, dim_y, exponents,
    num_trials); a raised exception propagates. The print side effects are
    dropped. -/
def run_and_save
    (build : ℕ → ℕ → ℕ × ℕ × ℕ × ℕ → QCCode)
    (dim_x dim_y : ℕ) (exponents : ℕ × ℕ × ℕ × ℕ) (num_trials : ℕ)
    (cache : Store) : Except Unit Store :=
  match get_quasi_cyclic_code_params build dim_x dim_y exponents num_trials with
  | .error e => .error e
  | .ok none => .ok cache
  | .ok (some v) => .ok (((dim_x, dim_y, exponents, num_trials), v) :: cache)

/- ================== Facts about folded maxima and minima ================ -/

theorem foldl_max_init_le {α : Type} [LinearOrder α] (l : List α) (a : α) :
    a ≤ l.foldl max a := by
  induction l generalizing a with
  | nil => simp
  | cons x xs ih => exact le_trans (le_max_left a x) (ih (max a x))

theorem foldl_max_le_of_mem {α : Type} [LinearOrder α] {l : List α} {x : α} (a : α)
    (hx : x ∈ l) : x ≤ l.foldl max a := by
  induction l generalizing a with
  | nil => simp at hx
  | cons y ys ih =>
    rcases List.mem_cons.mp hx with h | h
    · subst h
      exact le_trans (le_max_right a x) (foldl_max_init_le ys (max a x))
    · exact ih (max a y) h

theorem foldl_max_eq_or_mem {α : Type} [LinearOrder α] (l : List α) (a : α) :
    l.foldl max a = a ∨ l.foldl max a ∈ l := by
  induction l generalizing a with
  | nil => left; rfl
  | cons x xs ih =>
    rcases ih (max a x) with h | h
    · rcases max_choice a x with hm | hm
      · left; simp only [List.foldl_cons]; rw [h, hm]
      · right; simp only [List.foldl_cons]; rw [h, hm]; exact List.mem_cons_self x xs
    · right; exact List.mem_cons_of_mem x h

theorem foldl_min_le_init {α : Type} [LinearOrder α] (l : List α) (a : α) :
    l.foldl min a ≤ a := by
  induction l generalizing a with
  | nil => simp
  | cons x xs ih => exact le_trans (ih (min a x)) (min_le_left a x)

theorem foldl_min_le_of_mem {α : Type} [LinearOrder α] {l : List α} {x : α} (a : α)
    (hx : x ∈ l) : l.foldl min a ≤ x := by
  induction l generalizing a with
  | nil => simp at hx
  | cons y ys ih =>
    rcases List.mem_cons.mp hx with h | h
    · subst h
      exact le_trans (foldl_min_le_init ys (min a x)) (min_le_right a x)
    · exact ih (min a y) h

theorem foldl_min_eq_or_mem {α : Type} [LinearOrder α] (l : List α) (a : α) :
    l.foldl min a = a ∨ l.foldl min a ∈ l := by
  induction l generalizing a with
  | nil => left; rfl
  | cons x xs ih =>
    rcases ih (min a x) with h | h
    · rcases min_choice a x with hm | hm
      · left; simp only [List.foldl_cons]; rw [h, hm]
      · right; simp only [List.foldl_cons]; rw [h, hm]; exact List.mem_cons_self x xs
    · right; exact List.mem_cons_of_mem x h

/- ============ Real-valued communication distances (for C3, C5) ========= -/

/-- Squared shift norms are nonnegative. -/
theorem shift_norm_sq_nonneg (v : ℤ × ℤ) : 0 ≤ shift_norm_sq v :=
  add_nonneg (sq_nonneg v.1) (sq_nonneg v.2)

/-- Euclidean length sqrt(xx^2 + yy^2) of one shift vector, the quantity the
    script feeds into max and min. -/
noncomputable def euclid_norm (v : ℤ × ℤ) : ℝ :=
  Real.sqrt ((shift_norm_sq v : ℤ) : ℝ)

/-- Total variant of the per-mapping maximum of squared distances, seeded
    with 0; for a mapping with a nonempty union of shifts it agrees with
    mapping_max_dist_sq because squared norms are nonnegative. -/
def mapping_max_sq_val (m : ToricMapping) : ℤ :=
  ((m.shifts_x ++ m.shifts_z).map shift_norm_sq).foldl max 0

/-- Worst-case communication distance of one toric mapping; theorem
    C3_comm_distance_is_min_max proves it is the maximum Euclidean norm over
    the shifts of the mapping. -/
noncomputable def mapping_worst_distance (m : ToricMapping) : ℝ :=
  Real.sqrt ((mapping_max_sq_val m : ℤ) : ℝ)

/-- Real-valued minimal communication distance of a constructed code, the
    square root of the squared value carried by the pipeline. -/
noncomputable def comm_distance (code : QCCode) : Option ℝ :=
  (comm_distance_sq code).map (fun s => Real.sqrt ((s : ℤ) : ℝ))

theorem mapping_max_dist_sq_of_ne_nil {m : ToricMapping}
    (h : m.shifts_x ++ m.shifts_z ≠ []) :
    mapping_max_dist_sq m = some (mapping_max_sq_val m) := by
  unfold mapping_max_dist_sq mapping_max_sq_val
  cases hs : m.shifts_x ++ m.shifts_z with
  | nil => exact absurd hs h
  | cons v vs =>
    simp only [List.map_cons, List.foldl_cons]
    rw [max_eq_right (shift_norm_sq_nonneg v)]

theorem max_dists_sq_of_ne_nil {ms : List ToricMapping}
    (h : ∀ m ∈ ms, m.shifts_x ++ m.shifts_z ≠ []) :
    max_dists_sq ms = some (ms.map mapping_max_sq_val) := by
  induction ms with
  | nil => rfl
  | cons m ms ih =>
    have h1 := mapping_max_dist_sq_of_ne_nil (h m (List.mem_cons_self m ms))
    have h2 := ih (fun x hx => h x (List.mem_cons_of_mem m hx))
    simp only [max_dists_sq, h1, h2, List.map_cons]

/-- C3: for every code with a nonempty list of enumerated toric mappings
    (each with its required nonempty set of shift vectors, so the Python max
    and min are defined), the computed communication distance exists and is
    the min-max: each mapping has a worst-case distance that bounds the
    Euclidean norm of every one of its shifts and is attained by one of
    them, the computed value is below the worst case of every enumerated
    mapping, and equals the worst case of at least one of them. -/
theorem C3_comm_distance_is_min_max (code : QCCode)
    (hne : code.toric_mappings ≠ [])
    (hsh : ∀ m ∈ code.toric_mappings, m.shifts_x ++ m.shifts_z ≠ []) :
    ∃ d : ℝ, comm_distance code = some d ∧
      (∀ m ∈ code.toric_mappings,
        (∀ v ∈ m.shifts_x ++ m.shifts_z, euclid_norm v ≤ mapping_worst_distance m) ∧
        (∃ v ∈ m.shifts_x ++ m.shifts_z, euclid_norm v = mapping_worst_distance m)) ∧
      (∀ m ∈ code.toric_mappings, d ≤ mapping_worst_distance m) ∧
      (∃ m ∈ code.toric_mappings, d = mapping_worst_distance m) := by
  obtain ⟨m0, ms, hmm⟩ : ∃ m0 ms, code.toric_mappings = m0 :: ms := by
    cases h : code.toric_mappings with
    | nil => exact absurd h hne
    | cons a as => exact ⟨a, as, rfl⟩
  have hmds : max_dists_sq code.toric_mappings =
      some (mapping_max_sq_val m0 :: ms.map mapping_max_sq_val) := by
    rw [hmm, max_dists_sq_of_ne_nil (fun m hm => hsh m (hmm ▸ hm)), List.map_cons]
  have hcd : comm_distance_sq code =
      some ((ms.map mapping_max_sq_val).foldl min (mapping_max_sq_val m0)) := by
    unfold comm_distance_sq
    rw [hmds]
  refine ⟨Real.sqrt (((ms.map mapping_max_sq_val).foldl min (mapping_max_sq_val m0) : ℤ) : ℝ),
    ?_, ?_, ?_, ?_⟩
  · simp [comm_distance, hcd]
  · intro m hm
    constructor
    · intro v hv
      apply Real.sqrt_le_sqrt
      exact_mod_cast foldl_max_le_of_mem 0 (List.mem_map_of_mem shift_norm_sq hv)
    · rcases foldl_max_eq_or_mem ((m.shifts_x ++ m.shifts_z).map shift_norm_sq) 0 with h0 | hmem
      · cases hs : m.shifts_x ++ m.shifts_z with
        | nil => exact absurd hs (hsh m hm)
        | cons v0 vs =>
          refine ⟨v0, by simp [hs], ?_⟩
          have hle : shift_norm_sq v0 ≤ mapping_max_sq_val m := by
            apply foldl_max_le_of_mem
            rw [hs]
            exact List.mem_map_of_mem shift_norm_sq (List.mem_cons_self v0 vs)
          have hval : mapping_max_sq_val m = 0 := h0
          have heq : shift_norm_sq v0 = mapping_max_sq_val m :=
            le_antisymm hle (hval ▸ shift_norm_sq_nonneg v0)
          unfold euclid_norm mapping_worst_distance
          rw [heq]
      · obtain ⟨v, hv, hveq⟩ := List.mem_map.mp hmem
        refine ⟨v, hv, ?_⟩
        unfold euclid_norm mapping_worst_distance
        rw [hveq]
        rfl
  · intro m hm
    rw [hmm] at hm
    apply Real.sqrt_le_sqrt
    rcases List.mem_cons.mp hm with h | h
    · subst h
      exact_mod_cast foldl_min_le_init (ms.map mapping_max_sq_val) (mapping_max_sq_val m)
    · exact_mod_cast foldl_min_le_of_mem _ (List.mem_map_of_mem mapping_max_sq_val h)
  · rcases foldl_min_eq_or_mem (ms.map mapping_max_sq_val) (mapping_max_sq_val m0) with h | h
    · exact ⟨m0, by rw [hmm]; exact List.mem_cons_self m0 ms, by rw [h]; rfl⟩
    · obtain ⟨m, hm, hmeq⟩ := List.mem_map.mp h
      exact ⟨m, by rw [hmm]; exact List.mem_cons_of_mem m0 hm, by rw [← hmeq]; rfl⟩

/-- Witness for C3 at a concrete constructed code with one toric mapping. -/
theorem C3_comm_distance_is_min_max_witness :
    (QCCode.mk 25 2 [⟨[(3, 4)], [(0, 1)]⟩] (fun _ => 4)).toric_mappings ≠ [] ∧
    (∀ m ∈ (QCCode.mk 25 2 [⟨[(3, 4)], [(0, 1)]⟩] (fun _ => 4)).toric_mappings,
        m.shifts_x ++ m.shifts_z ≠ []) ∧
    (∃ d : ℝ,
      comm_distance (QCCode.mk 25 2 [⟨[(3, 4)], [(0, 1)]⟩] (fun _ => 4)) = some d ∧
      (∀ m ∈ (QCCode.mk 25 2 [⟨[(3, 4)], [(0, 1)]⟩] (fun _ => 4)).toric_mappings,
        (∀ v ∈ m.shifts_x ++ m.shifts_z, euclid_norm v ≤ mapping_worst_distance m) ∧
        (∃ v ∈ m.shifts_x ++ m.shifts_z, euclid_norm v = mapping_worst_distance m)) ∧
      (∀ m ∈ (QCCode.mk 25 2 [⟨[(3, 4)], [(0, 1)]⟩] (fun _ => 4)).toric_mappings,
        d ≤ mapping_worst_distance m) ∧
      (∃ m ∈ (QCCode.mk 25 2 [⟨[(3, 4)], [(0, 1)]⟩] (fun _ => 4)).toric_mappings,
        d = mapping_worst_distance m)) :=
  ⟨by simp, by simp,
    C3_comm_distance_is_min_max (QCCode.mk 25 2 [⟨[(3, 4)], [(0, 1)]⟩] (fun _ => 4))
      (by simp) (by simp)⟩

/-- C4: a candidate whose constructed code has logical dimension 0 makes
    get_quasi_cyclic_code_params return None, and run_and_save leaves the
    Result Store exactly as it was: degenerate codes are never persisted. -/
theorem C4_degenerate_not_persisted
    (build : ℕ → ℕ → ℕ × ℕ × ℕ × ℕ → QCCode) (dim_x dim_y : ℕ)
    (exponents : ℕ × ℕ × ℕ × ℕ) (num_trials : ℕ) (s : Store)
    (h : (build dim_x dim_y exponents).dimension = 0) :
    get_quasi_cyclic_code_params build dim_x dim_y exponents num_trials = .ok none ∧
      run_and_save build dim_x dim_y exponents num_trials s = .ok s := by
  have h1 : get_quasi_cyclic_code_params build dim_x dim_y exponents num_trials = .ok none := by
    unfold get_quasi_cyclic_code_params
    simp [h]
  refine ⟨h1, ?_⟩
  unfold run_and_save
  rw [h1]

/-- Witness for C4 at a concrete degenerate code and a nonempty store. -/
theorem C4_degenerate_not_persisted_witness :
    (((fun _ _ _ => QCCode.mk 9 0 [] (fun _ => 1)) : ℕ → ℕ → ℕ × ℕ × ℕ × ℕ → QCCode)
        3 3 (0, 0, 0, 0)).dimension = 0 ∧
    get_quasi_cyclic_code_params (fun _ _ _ => QCCode.mk 9 0 [] (fun _ => 1))
        3 3 (0, 0, 0, 0) 1000 = .ok none ∧
    run_and_save (fun _ _ _ => QCCode.mk 9 0 [] (fun _ => 1)) 3 3 (0, 0, 0, 0) 1000
        [((4, 3, (1, 2, 0, 1), 1000), (8, 2, 3, 5))] =
      .ok [((4, 3, (1, 2, 0, 1), 1000), (8, 2, 3, 5))] := by
  refine ⟨rfl, ?_⟩
  have := C4_degenerate_not_persisted (fun _ _ _ => QCCode.mk 9 0 [] (fun _ => 1))
    3 3 (0, 0, 0, 0) 1000 [((4, 3, (1, 2, 0, 1), 1000), (8, 2, 3, 5))] rfl
  exact this

/-- C9: for a non-degenerate code whose enumeration of toric mappings is
    empty, get_quasi_cyclic_code_params neither returns None nor skips the
    candidate: it raises (min of an empty sequence), and run_and_save
    propagates the failure instead of writing or silently discarding. -/
theorem C9_empty_mappings_raise
    (build : ℕ → ℕ → ℕ × ℕ × ℕ × ℕ → QCCode) (dim_x dim_y : ℕ)
    (exponents : ℕ × ℕ × ℕ × ℕ) (num_trials : ℕ)
    (h1 : (build dim_x dim_y exponents).dimension ≠ 0)
    (h2 : (build dim_x dim_y exponents).toric_mappings = []) :
    get_quasi_cyclic_code_params build dim_x dim_y exponents num_trials = .error () ∧
      ∀ s : Store, run_and_save build dim_x dim_y exponents num_trials s = .error () := by
  have hg : get_quasi_cyclic_code_params build dim_x dim_y exponents num_trials = .error () := by
    unfold get_quasi_cyclic_code_params
    have hc : comm_distance_sq (build dim_x dim_y exponents) = none := by
      unfold comm_distance_sq
      rw [h2]
      rfl
    simp [h1, hc]
  refine ⟨hg, fun s => ?_⟩
  unfold run_and_save
  rw [hg]

/-- Witness for C9 at a concrete non-degenerate code with no toric mappings. -/
theorem C9_empty_mappings_raise_witness :
    (((fun _ _ _ => QCCode.mk 16 2 [] (fun _ => 4)) : ℕ → ℕ → ℕ × ℕ × ℕ × ℕ → QCCode)
        4 3 (1, 0, 0, 1)).dimension ≠ 0 ∧
    (((fun _ _ _ => QCCode.mk 16 2 [] (fun _ => 4)) : ℕ → ℕ → ℕ × ℕ × ℕ × ℕ → QCCode)
        4 3 (1, 0, 0, 1)).toric_mappings = [] ∧
    get_quasi_cyclic_code_params (fun _ _ _ => QCCode.mk 16 2 [] (fun _ => 4))
        4 3 (1, 0, 0, 1) 1000 = .error () ∧
    run_and_save (fun _ _ _ => QCCode.mk 16 2 [] (fun _ => 4)) 4 3 (1, 0, 0, 1) 1000 [] =
      .error () := by
  have := C9_empty_mappings_raise (fun _ _ _ => QCCode.mk 16 2 [] (fun _ => 4))
    4 3 (1, 0, 0, 1) 1000 (by decide) rfl
  exact ⟨by decide, rfl, this.1, this.2 []⟩

/-- A parameter record surviving the pipeline carries a squared
    communication distance within the squared cutoff. -/
theorem get_params_comm_le
    (build : ℕ → ℕ → ℕ × ℕ × ℕ × ℕ → QCCode) (dim_x dim_y : ℕ)
    (exponents : ℕ × ℕ × ℕ × ℕ) (num_trials : ℕ) (v : ℕ × ℕ × ℕ × ℤ)
    (h : get_quasi_cyclic_code_params build dim_x dim_y exponents num_trials = .ok (some v)) :
    v.2.2.2 ≤ (MAX_COMMUNICATION_DISTANCE ^ 2 : ℤ) := by
  unfold get_quasi_cyclic_code_params at h
  by_cases h0 : (build dim_x dim_y exponents).dimension = 0
  · simp [h0] at h
  · rw [if_neg h0] at h
    cases hc : comm_distance_sq (build dim_x dim_y exponents) with
    | none => rw [hc] at h; exact absurd h (by simp)
    | some c =>
      rw [hc, Option.elim_some] at h
      by_cases hlt : (MAX_COMMUNICATION_DISTANCE ^ 2 : ℤ) < c
      · rw [if_pos hlt] at h
        exact absurd h (by simp)
      · rw [if_neg hlt] at h
        have hv : v = ((build dim_x dim_y exponents).num_qubits,
            (build dim_x dim_y exponents).dimension,
            (build dim_x dim_y exponents).distance_bound num_trials, c) := by
          simpa using h.symm
        rw [hv]
        exact le_of_not_lt hlt

/-- C5: if the minimal communication distance exceeds the cutoff of 12 then
    get_quasi_cyclic_code_params returns None, and consequently any entry of
    the store after run_and_save either predates the call or carries a
    communication distance at most 12 (equivalently, a squared distance at
    most 144). -/
theorem C5_cutoff_filter
    (build : ℕ → ℕ → ℕ × ℕ × ℕ × ℕ → QCCode) (dim_x dim_y : ℕ)
    (exponents : ℕ × ℕ × ℕ × ℕ) (num_trials : ℕ) :
    (∀ c : ℤ, comm_distance_sq (build dim_x dim_y exponents) = some c →
        ((MAX_COMMUNICATION_DISTANCE : ℕ) : ℝ) < Real.sqrt ((c : ℤ) : ℝ) →
        get_quasi_cyclic_code_params build dim_x dim_y exponents num_trials = .ok none) ∧
    (∀ (s s2 : Store) (kv : CacheKey × CacheValue),
        run_and_save build dim_x dim_y exponents num_trials s = .ok s2 → kv ∈ s2 →
        kv ∈ s ∨ (kv.2.2.2.2 ≤ (MAX_COMMUNICATION_DISTANCE ^ 2 : ℤ) ∧
          Real.sqrt ((kv.2.2.2.2 : ℤ) : ℝ) ≤ ((MAX_COMMUNICATION_DISTANCE : ℕ) : ℝ))) := by
  constructor
  · intro c hc hsqrt
    have h144 : (MAX_COMMUNICATION_DISTANCE ^ 2 : ℤ) < c := by
      have h12 : (0 : ℝ) ≤ ((MAX_COMMUNICATION_DISTANCE : ℕ) : ℝ) := by positivity
      have := (Real.lt_sqrt h12).mp hsqrt
      exact_mod_cast this
    unfold get_quasi_cyclic_code_params
    by_cases h0 : (build dim_x dim_y exponents).dimension = 0
    · simp [h0]
    · rw [if_neg h0, hc, Option.elim_some, if_pos h144]
  · intro s s2 kv hrun hkv
    unfold run_and_save at hrun
    cases hg : get_quasi_cyclic_code_params build dim_x dim_y exponents num_trials with
    | error e => rw [hg] at hrun; exact absurd hrun (by simp)
    | ok o =>
      cases o with
      | none =>
        rw [hg] at hrun
        have hs2 : s2 = s := by simpa using hrun.symm
        exact Or.inl (hs2 ▸ hkv)
      | some v =>
        rw [hg] at hrun
        have hs2 : s2 = ((dim_x, dim_y, exponents, num_trials), v) :: s := by
          simpa using hrun.symm
        rw [hs2] at hkv
        rcases List.mem_cons.mp hkv with h | h
        · right
          have hle : v.2.2.2 ≤ (MAX_COMMUNICATION_DISTANCE ^ 2 : ℤ) :=
            get_params_comm_le build dim_x dim_y exponents num_trials v hg
          have hkv2 : kv.2.2.2.2 = v.2.2.2 := by rw [h]
          rw [hkv2]
          refine ⟨hle, ?_⟩
          have hcast : ((v.2.2.2 : ℤ) : ℝ) ≤
              (((MAX_COMMUNICATION_DISTANCE : ℕ) : ℝ)) ^ 2 := by
            exact_mod_cast hle
          calc Real.sqrt ((v.2.2.2 : ℤ) : ℝ)
              ≤ Real.sqrt ((((MAX_COMMUNICATION_DISTANCE : ℕ) : ℝ)) ^ 2) :=
                Real.sqrt_le_sqrt hcast
            _ = ((MAX_COMMUNICATION_DISTANCE : ℕ) : ℝ) := Real.sqrt_sq (by positivity)
        · exact Or.inl h

/-- Witness for C5: a concrete code whose only mapping needs a shift of
    squared length 145, hence communication distance above 12. -/
theorem C5_cutoff_filter_witness :
    comm_distance_sq (((fun _ _ _ => QCCode.mk 10 1 [⟨[(1, 12)], []⟩] (fun _ => 3)) :
        ℕ → ℕ → ℕ × ℕ × ℕ × ℕ → QCCode) 3 3 (0, 0, 0, 0)) = some 145 ∧
    get_quasi_cyclic_code_params (fun _ _ _ => QCCode.mk 10 1 [⟨[(1, 12)], []⟩] (fun _ => 3))
        3 3 (0, 0, 0, 0) 1000 = .ok none := by
  have h1 : comm_distance_sq (((fun _ _ _ => QCCode.mk 10 1 [⟨[(1, 12)], []⟩] (fun _ => 3)) :
      ℕ → ℕ → ℕ × ℕ × ℕ × ℕ → QCCode) 3 3 (0, 0, 0, 0)) = some 145 := by decide
  refine ⟨h1, ?_⟩
  refine (C5_cutoff_filter (fun _ _ _ => QCCode.mk 10 1 [⟨[(1, 12)], []⟩] (fun _ => 3))
      3 3 (0, 0, 0, 0) 1000).1 145 h1 ?_
  have : ((MAX_COMMUNICATION_DISTANCE : ℕ) : ℝ) = 12 := by
    norm_num [MAX_COMMUNICATION_DISTANCE]
  rw [this]
  rw [show (((145 : ℤ) : ℝ)) = (145 : ℝ) by norm_num]
  rw [Real.lt_sqrt (by norm_num)]
  norm_num

/-- C2 counterexample: the key (3, 3, (0,0,0,0), 5) is already present in
    the store with value (0, 0, 0, 0), yet run_and_save re-evaluates the
    candidate and overwrites the entry with the freshly computed value
    (4, 1, 3, 1): the sweep never consults the store and does not skip
    recomputation of a key evaluated in a previous run. -/
theorem C2_counterexample :
    cache_get (3, 3, (0, 0, 0, 0), 5) [((3, 3, (0, 0, 0, 0), 5), (0, 0, 0, 0))] =
      some (0, 0, 0, 0) ∧
    (run_and_save (fun _ _ _ => QCCode.mk 4 1 [⟨[(0, 1)], []⟩] (fun _ => 3))
        3 3 (0, 0, 0, 0) 5 [((3, 3, (0, 0, 0, 0), 5), (0, 0, 0, 0))]).map
      (cache_get (3, 3, (0, 0, 0, 0), 5)) = .ok (some (4, 1, 3, 1)) := by
  exact ⟨by decide, by rfl⟩

/-- C2 as amended: run_and_save never reads the store; whenever the
    evaluation yields a surviving record it recomputes and prepends the
    fresh value at the key, so the value subsequently read at the key is the
    freshly computed one, regardless of any binding the key already had. -/
theorem C2_amended_recompute_and_overwrite
    (build : ℕ → ℕ → ℕ × ℕ × ℕ × ℕ → QCCode) (dim_x dim_y : ℕ)
    (exponents : ℕ × ℕ × ℕ × ℕ) (num_trials : ℕ) (s : Store) (v : ℕ × ℕ × ℕ × ℤ)
    (h : get_quasi_cyclic_code_params build dim_x dim_y exponents num_trials = .ok (some v)) :
    run_and_save build dim_x dim_y exponents num_trials s =
      .ok (((dim_x, dim_y, exponents, num_trials), v) :: s) ∧
    (run_and_save build dim_x dim_y exponents num_trials s).map
      (cache_get (dim_x, dim_y, exponents, num_trials)) = .ok (some v) := by
  have h1 : run_and_save build dim_x dim_y exponents num_trials s =
      .ok (((dim_x, dim_y, exponents, num_trials), v) :: s) := by
    unfold run_and_save
    rw [h]
  refine ⟨h1, ?_⟩
  rw [h1]
  simp [Except.map, cache_get]

/-- Witness for the amended C2 at a concrete build and a store that already
    binds the key to a stale value. -/
theorem C2_amended_recompute_and_overwrite_witness :
    get_quasi_cyclic_code_params (fun _ _ _ => QCCode.mk 4 1 [⟨[(0, 1)], []⟩] (fun _ => 3))
        3 3 (0, 0, 0, 0) 5 = .ok (some (4, 1, 3, 1)) ∧
    run_and_save (fun _ _ _ => QCCode.mk 4 1 [⟨[(0, 1)], []⟩] (fun _ => 3))
        3 3 (0, 0, 0, 0) 5 [((3, 3, (0, 0, 0, 0), 5), (0, 0, 0, 0))] =
      .ok [((3, 3, (0, 0, 0, 0), 5), (4, 1, 3, 1)),
           ((3, 3, (0, 0, 0, 0), 5), (0, 0, 0, 0))] := by
  have h : get_quasi_cyclic_code_params
      (fun _ _ _ => QCCode.mk 4 1 [⟨[(0, 1)], []⟩] (fun _ => 3))
      3 3 (0, 0, 0, 0) 5 = .ok (some (4, 1, 3, 1)) := by rfl
  exact ⟨h, (C2_amended_recompute_and_overwrite
    (fun _ _ _ => QCCode.mk 4 1 [⟨[(0, 1)], []⟩] (fun _ => 3))
    3 3 (0, 0, 0, 0) 5 [((3, 3, (0, 0, 0, 0), 5), (0, 0, 0, 0))] (4, 1, 3, 1) h).1⟩

/- ============== Candidate Enumerators (both sweep drivers) ============= -/

/-- Embedding of the Python range(a, b). -/
def pyRange (a b : ℕ) : List ℕ := List.range' a (b - a)

/-- itertools.product(range(dim_x), range(dim_y), range(dim_x), range(dim_y)),
    in product order (rightmost factor fastest); the four components are the
    exponents ax, ay, bx, by of the two polynomials. -/
def exponent_tuples (dim_x dim_y : ℕ) : List (ℕ × ℕ × ℕ × ℕ) :=
  (List.range dim_x).flatMap fun a1 =>
    (List.range dim_y).flatMap fun a2 =>
      (List.range dim_x).flatMap fun b1 =>
        (List.range dim_y).map fun b2 => (a1, a2, b1, b2)

/-- The nested candidate loops of the quasi-cyclic sweep driver: dim_x from
    max(MIN_ORDER, min_order) to max_order, dim_y from MIN_ORDER to dim_x,
    then the exponent product. -/
def geometric_candidates (min_order max_order : ℕ) :
    List (ℕ × ℕ × (ℕ × ℕ × ℕ × ℕ)) :=
  (pyRange (max MIN_ORDER min_order) (max_order + 1)).flatMap fun dim_x =>
    (pyRange MIN_ORDER (dim_x + 1)).flatMap fun dim_y =>
      (exponent_tuples dim_x dim_y).map fun e => (dim_x, dim_y, e)

/-- Embedding of get_small_groups: group orders 3..max_order, group indices
    1..SmallGroup.number(order). The library lookup
    abstract.SmallGroup.number is the opaque argument. -/
def get_small_groups (number : ℕ → ℕ) (max_order : ℕ) : List (ℕ × ℕ) :=
  (pyRange 3 (max_order + 1)).flatMap fun order =>
    (pyRange 1 (number order + 1)).map fun index => (order, index)

/-- Strict lexicographic order on exponent quadruples. -/
def exp_lex (e1 e2 : ℕ × ℕ × ℕ × ℕ) : Prop :=
  e1.1 < e2.1 ∨ (e1.1 = e2.1 ∧ (e1.2.1 < e2.2.1 ∨ (e1.2.1 = e2.2.1 ∧
    (e1.2.2.1 < e2.2.2.1 ∨ (e1.2.2.1 = e2.2.2.1 ∧ e1.2.2.2 < e2.2.2.2)))))

/-- Strict lexicographic order on geometric candidates: dim_x, then dim_y,
    then the exponent tuple. -/
def cand_lex (c1 c2 : ℕ × ℕ × (ℕ × ℕ × ℕ × ℕ)) : Prop :=
  c1.1 < c2.1 ∨ (c1.1 = c2.1 ∧ (c1.2.1 < c2.2.1 ∨ (c1.2.1 = c2.2.1 ∧
    exp_lex c1.2.2 c2.2.2)))

/-- Strict lexicographic order on (group order, group index). -/
def group_lex (g1 g2 : ℕ × ℕ) : Prop :=
  g1.1 < g2.1 ∨ (g1.1 = g2.1 ∧ g1.2 < g2.2)

/-- A flattened nest of loops is pairwise ordered when the outer list is,
    each inner list is, and outer order forces order across inner blocks. -/
theorem pairwise_flatMap {α β : Type} {l : List α} {f : α → List β}
    (R : α → α → Prop) {T : β → β → Prop}
    (hR : l.Pairwise R)
    (hin : ∀ a ∈ l, (f a).Pairwise T)
    (hcross : ∀ a1 a2, R a1 a2 → ∀ b1 ∈ f a1, ∀ b2 ∈ f a2, T b1 b2) :
    (l.flatMap f).Pairwise T := by
  induction l with
  | nil => simp
  | cons a as ih =>
    rw [List.flatMap_cons, List.pairwise_append]
    rcases List.pairwise_cons.mp hR with ⟨hra, hras⟩
    refine ⟨hin a (List.mem_cons_self a as),
      ih hras (fun x hx => hin x (List.mem_cons_of_mem a hx)), ?_⟩
    intro b1 hb1 b2 hb2
    obtain ⟨a2, ha2, hb2a⟩ := List.mem_flatMap.mp hb2
    exact hcross a a2 (hra a2 ha2) b1 hb1 b2 hb2a

theorem exponent_tuples_pairwise (dx dy : ℕ) :
    (exponent_tuples dx dy).Pairwise exp_lex := by
  apply pairwise_flatMap (fun x1 x2 => x1 < x2) (List.pairwise_lt_range dx)
  · intro a1 _
    apply pairwise_flatMap (fun x1 x2 => x1 < x2) (List.pairwise_lt_range dy)
    · intro a2 _
      apply pairwise_flatMap (fun x1 x2 => x1 < x2) (List.pairwise_lt_range dx)
      · intro b1 _
        rw [List.pairwise_map]
        apply (List.pairwise_lt_range dy).imp
        intro x y h
        exact Or.inr ⟨rfl, Or.inr ⟨rfl, Or.inr ⟨rfl, h⟩⟩⟩
      · intro x y hxy c1 hc1 c2 hc2
        obtain ⟨v1, _, rfl⟩ := List.mem_map.mp hc1
        obtain ⟨v2, _, rfl⟩ := List.mem_map.mp hc2
        exact Or.inr ⟨rfl, Or.inr ⟨rfl, Or.inl hxy⟩⟩
    · intro x y hxy c1 hc1 c2 hc2
      obtain ⟨w1, _, hc1f⟩ := List.mem_flatMap.mp hc1
      obtain ⟨v1, _, rfl⟩ := List.mem_map.mp hc1f
      obtain ⟨w2, _, hc2f⟩ := List.mem_flatMap.mp hc2
      obtain ⟨v2, _, rfl⟩ := List.mem_map.mp hc2f
      exact Or.inr ⟨rfl, Or.inl hxy⟩
  · intro x y hxy c1 hc1 c2 hc2
    obtain ⟨u1, _, hc1f⟩ := List.mem_flatMap.mp hc1
    obtain ⟨w1, _, hc1g⟩ := List.mem_flatMap.mp hc1f
    obtain ⟨v1, _, rfl⟩ := List.mem_map.mp hc1g
    obtain ⟨u2, _, hc2f⟩ := List.mem_flatMap.mp hc2
    obtain ⟨w2, _, hc2g⟩ := List.mem_flatMap.mp hc2f
    obtain ⟨v2, _, rfl⟩ := List.mem_map.mp hc2g
    exact Or.inl hxy

/-- C7: the Candidate Enumerators are pure functions of their bounds, so two
    runs with identical bounds produce the identical list; and each list is
    strictly sorted in the declared nested-range order (dim_x, then dim_y,
    then the lexicographic exponent product for the geometric family; group
    order then group index for the group family), which also fixes the
    sequence order uniquely and rules out repeats. -/
theorem C7_enumeration_deterministic_and_ordered
    (number : ℕ → ℕ) (min_order max_order gmax : ℕ) :
    geometric_candidates min_order max_order =
      geometric_candidates min_order max_order ∧
    (geometric_candidates min_order max_order).Pairwise cand_lex ∧
    get_small_groups number gmax = get_small_groups number gmax ∧
    (get_small_groups number gmax).Pairwise group_lex := by
  refine ⟨rfl, ?_, rfl, ?_⟩
  · apply pairwise_flatMap (fun x1 x2 => x1 < x2) (List.pairwise_lt_range' _ _)
    · intro dx _
      apply pairwise_flatMap (fun x1 x2 => x1 < x2) (List.pairwise_lt_range' _ _)
      · intro dy _
        rw [List.pairwise_map]
        apply (exponent_tuples_pairwise dx dy).imp
        intro e1 e2 h
        exact Or.inr ⟨rfl, Or.inr ⟨rfl, h⟩⟩
      · intro dy1 dy2 hlt b1 hb1 b2 hb2
        obtain ⟨e1, _, rfl⟩ := List.mem_map.mp hb1
        obtain ⟨e2, _, rfl⟩ := List.mem_map.mp hb2
        exact Or.inr ⟨rfl, Or.inl hlt⟩
    · intro dx1 dx2 hlt b1 hb1 b2 hb2
      obtain ⟨dy1, _, hb1f⟩ := List.mem_flatMap.mp hb1
      obtain ⟨e1, _, rfl⟩ := List.mem_map.mp hb1f
      obtain ⟨dy2, _, hb2f⟩ := List.mem_flatMap.mp hb2
      obtain ⟨e2, _, rfl⟩ := List.mem_map.mp hb2f
      exact Or.inl hlt
  · apply pairwise_flatMap (fun x1 x2 => x1 < x2) (List.pairwise_lt_range' _ _)
    · intro o _
      rw [List.pairwise_map]
      apply (List.pairwise_lt_range' _ _).imp
      intro x y h
      exact Or.inr ⟨rfl, h⟩
    · intro o1 o2 hlt b1 hb1 b2 hb2
      obtain ⟨i1, _, rfl⟩ := List.mem_map.mp hb1
      obtain ⟨i2, _, rfl⟩ := List.mem_map.mp hb2
      exact Or.inl hlt

/-- C10: every geometric candidate the sweep enumerates (min_order = 3,
    max_order = 14) satisfies 3 <= dim_y <= dim_x <= 14, and its exponent
    tuple lies in [0, dim_x) x [0, dim_y) x [0, dim_x) x [0, dim_y); in
    particular dim_y > dim_x is never generated. -/
theorem C10_candidate_bounds (c : ℕ × ℕ × (ℕ × ℕ × ℕ × ℕ))
    (hc : c ∈ geometric_candidates 3 14) :
    3 ≤ c.2.1 ∧ c.2.1 ≤ c.1 ∧ c.1 ≤ 14 ∧ 3 ≤ c.1 ∧
      c.2.2.1 < c.1 ∧ c.2.2.2.1 < c.2.1 ∧ c.2.2.2.2.1 < c.1 ∧ c.2.2.2.2.2 < c.2.1 := by
  obtain ⟨dx, hdx, hcf⟩ := List.mem_flatMap.mp hc
  obtain ⟨dy, hdy, hcf2⟩ := List.mem_flatMap.mp hcf
  obtain ⟨e, he, rfl⟩ := List.mem_map.mp hcf2
  obtain ⟨a1, ha1, hef⟩ := List.mem_flatMap.mp he
  obtain ⟨a2, ha2, hef2⟩ := List.mem_flatMap.mp hef
  obtain ⟨b1, hb1, hef3⟩ := List.mem_flatMap.mp hef2
  obtain ⟨b2, hb2, rfl⟩ := List.mem_map.mp hef3
  rw [pyRange, List.mem_range'_1] at hdx hdy
  rw [List.mem_range] at ha1 ha2 hb1 hb2
  simp only [MIN_ORDER, Nat.max_self] at hdx hdy
  refine ⟨?_, ?_, ?_, ?_, ?_, ?_, ?_, ?_⟩ <;> dsimp only <;> omega

/-- Witness for C10 at the first enumerated candidate. -/
theorem C10_candidate_bounds_witness :
    (3, 3, (0, 0, 0, 0)) ∈ geometric_candidates 3 14 ∧
    (3 ≤ (3 : ℕ) ∧ (3 : ℕ) ≤ 3 ∧ (3 : ℕ) ≤ 14 ∧ 3 ≤ (3 : ℕ) ∧
      (0 : ℕ) < 3 ∧ (0 : ℕ) < 3 ∧ (0 : ℕ) < 3 ∧ (0 : ℕ) < 3) := by
  have hmem : ((3 : ℕ), (3 : ℕ), ((0 : ℕ), (0 : ℕ), (0 : ℕ), (0 : ℕ))) ∈
      geometric_candidates 3 14 := by
    apply List.mem_flatMap.mpr
    refine ⟨3, by decide, ?_⟩
    apply List.mem_flatMap.mpr
    refine ⟨3, by decide, ?_⟩
    apply List.mem_map.mpr
    exact ⟨(0, 0, 0, 0), by decide, rfl⟩
  exact ⟨hmem, C10_candidate_bounds (3, 3, (0, 0, 0, 0)) hmem⟩

/- ======= Feasibility filter of quantum_tanner_search __main__ (C8) ===== -/

/-- Interface record of a classical base code: an identifying label and the
    block length num_bits, the only fields the dispatch loop reads. -/
structure BaseCode where
  code_id : ℕ
  num_bits : ℕ
deriving DecidableEq

/-- The dispatch loops of quantum_tanner_search __main__, recorded as the
    list of submitted jobs in dispatch order: for every group and base code,
    the pair is skipped silently (continue) when
    group_order < base_code.num_bits, otherwise one job is dispatched per
    sample in range(num_samples). -/
def dispatched_jobs (groups : List (ℕ × ℕ)) (base_codes : List BaseCode)
    (num_samples : ℕ) : List (ℕ × ℕ × BaseCode × ℕ) :=
  groups.flatMap fun g =>
    base_codes.flatMap fun c =>
      if g.1 < c.num_bits then []
      else (List.range num_samples).map fun sample => (g.1, g.2, c, sample)

/-- C8: a candidate whose group order is smaller than the block length of
    the classical subcode is never dispatched: no job for it appears in the
    dispatch list, for any sample, with no exception raised (the enumeration
    is total and simply omits the pair). -/
theorem C8_infeasible_pair_skipped
    (groups : List (ℕ × ℕ)) (base_codes : List BaseCode) (num_samples : ℕ)
    (group_order group_index : ℕ) (c : BaseCode) (sample : ℕ)
    (h : group_order < c.num_bits) :
    (group_order, group_index, c, sample) ∉ dispatched_jobs groups base_codes num_samples := by
  intro hmem
  obtain ⟨g, _, hmem2⟩ := List.mem_flatMap.mp hmem
  obtain ⟨c2, _, hmem3⟩ := List.mem_flatMap.mp hmem2
  by_cases hlt : g.1 < c2.num_bits
  · rw [if_pos hlt] at hmem3
    simp at hmem3
  · rw [if_neg hlt] at hmem3
    obtain ⟨s, _, heq⟩ := List.mem_map.mp hmem3
    obtain ⟨h1, h2, h3, h4⟩ : g.1 = group_order ∧ g.2 = group_index ∧ c2 = c ∧ s = sample := by
      simpa [Prod.ext_iff] using heq
    rw [h1, h3] at hlt
    exact hlt h

/-- Witness for C8: the MittalCode of block length 5 against the group
    SmallGroup(4, 1), which is too small for it. -/
theorem C8_infeasible_pair_skipped_witness :
    (4 : ℕ) < (BaseCode.mk 2 5).num_bits ∧
    (4, 1, BaseCode.mk 2 5, 0) ∉
      dispatched_jobs [(4, 1), (5, 1)] [BaseCode.mk 1 3, BaseCode.mk 2 5] 100 :=
  ⟨by decide,
    C8_infeasible_pair_skipped [(4, 1), (5, 1)] [BaseCode.mk 1 3, BaseCode.mk 2 5] 100
      4 1 (BaseCode.mk 2 5) 0 (by decide)⟩

/- ==================== Scheduler models (C6) ============================ -/

/-- State of the poll-loop scheduler of quantum_tanner_search __main__: the
    number of candidate jobs not yet submitted and the list active_tasks of
    submitted task handles, each flagged true once task.ready(). -/
structure SchedState where
  queued : ℕ
  active : List Bool
deriving DecidableEq

/-- Steps of the poll-loop scheduler. submit: the inner while loop has
    exited, so len(active_tasks) < max_concurrent_tasks, and apply_async
    appends a new unresolved handle. reap: the while body runs only while
    len(active_tasks) >= max_concurrent_tasks and keeps exactly the handles
    with not task.ready(). complete: a worker finishes some unresolved task,
    at any time. -/
inductive SchedStep (maxW : ℕ) : SchedState → SchedState → Prop
  | submit (q : ℕ) (a : List Bool) (h : a.length < maxW) :
      SchedStep maxW ⟨q + 1, a⟩ ⟨q, a ++ [false]⟩
  | reap (q : ℕ) (a : List Bool) (h : maxW ≤ a.length) :
      SchedStep maxW ⟨q, a⟩ ⟨q, a.filter (fun b => !b)⟩
  | complete (q : ℕ) (a1 a2 : List Bool) :
      SchedStep maxW ⟨q, a1 ++ false :: a2⟩ ⟨q, a1 ++ true :: a2⟩

/-- States the poll-loop scheduler can reach from n queued candidates and an
    empty active_tasks list. -/
inductive SchedReach (maxW n : ℕ) : SchedState → Prop
  | init : SchedReach maxW n ⟨n, []⟩
  | step {s t : SchedState} : SchedReach maxW n s → SchedStep maxW s t → SchedReach maxW n t

/-- State of the quasi-cyclic sweep driver: queued candidates and the
    futures already handed to the ProcessPoolExecutor (true once done).
    executor.submit returns immediately and is never guarded by the number
    of outstanding futures. -/
structure ExecState where
  queued : ℕ
  active : List Bool
deriving DecidableEq

/-- Steps of the executor-based driver: unguarded submission, and completion
    of some running job. -/
inductive ExecStep : ExecState → ExecState → Prop
  | submit (q : ℕ) (a : List Bool) : ExecStep ⟨q + 1, a⟩ ⟨q, a ++ [false]⟩
  | complete (q : ℕ) (a1 a2 : List Bool) :
      ExecStep ⟨q, a1 ++ false :: a2⟩ ⟨q, a1 ++ true :: a2⟩

/-- States the executor-based driver can reach from n queued candidates. -/
inductive ExecReach (n : ℕ) : ExecState → Prop
  | init : ExecReach n ⟨n, []⟩
  | step {s t : ExecState} : ExecReach n s → ExecStep s t → ExecReach n t

/-- C6 counterexample: in the quasi-cyclic sweep the claim fails. With a
    worker pool of max_workers = 1 and two candidates, the driver reaches
    (by two back-to-back unguarded executor.submit calls, before any worker
    finishes) a state with two dispatched-but-unresolved futures, exceeding
    the bound of 1. -/
theorem C6_counterexample :
    ExecReach 2 ⟨0, [false, false]⟩ ∧ 1 < ([false, false] : List Bool).count false :=
  ⟨ExecReach.step (ExecReach.step ExecReach.init (ExecStep.submit 1 []))
      (ExecStep.submit 0 [false]),
   by decide⟩

/-- C6 as amended: the poll-loop scheduler of quantum_tanner_search does
    enforce the bound: in every reachable state the number of unresolved
    handles in active_tasks is at most max_concurrent_tasks. The
    executor-based quasi-cyclic driver does not bound its unresolved
    futures (see the counterexample); only its executing jobs are bounded,
    by the pool itself. -/
theorem C6_amended_poll_loop_bound (maxW n : ℕ) (s : SchedState)
    (h : SchedReach maxW n s) : s.active.count false ≤ maxW := by
  induction h with
  | init => simp
  | step hreach hstep ih =>
    cases hstep with
    | submit q a hlt =>
      have hc : a.count false ≤ a.length := List.count_le_length false a
      simp only [List.count_append] at *
      have h1 : ([false] : List Bool).count false = 1 := by decide
      simp only [h1]
      omega
    | reap q a hge =>
      have : (a.filter (fun b => !b)).count false = a.count false :=
        List.count_filter (by decide)
      simpa [this] using ih
    | complete q a1 a2 =>
      simp [List.count_append, List.count_cons] at ih ⊢
      omega

/-- Witness for the amended C6 at a concrete reachable state: one submit
    with max_concurrent_tasks = 1 and two queued candidates. -/
theorem C6_amended_poll_loop_bound_witness :
    SchedReach 1 2 ⟨1, [false]⟩ ∧ ([false] : List Bool).count false ≤ 1 :=
  ⟨SchedReach.step SchedReach.init (SchedStep.submit 1 [] (by decide)),
   C6_amended_poll_loop_bound 1 2 ⟨1, [false]⟩
     (SchedReach.step SchedReach.init (SchedStep.submit 1 [] (by decide)))⟩
